import Mathlib

/-!
Verification of the mining core of a proof-of-work blockchain node
(block/header hashing, mempool, miner) against its specification.

The embedding follows the Rust sources `block.rs`, `mempool.rs` and
`miner.rs`.  Components the sources consume but that live outside those
files (the 32-byte hash type `H256`, SHA-256 itself, the Merkle tree,
the blockchain store, the network handle and the configuration
constants) are modelled from the specification; each such definition
says so in its doc comment.  SHA-256 and the configuration constants
`MINING_STEP`, `POOL_SIZE_LIMIT` and `BLOCK_SIZE_LIMIT` are treated as
parameters: nothing proved here depends on their concrete values.
-/

namespace BitcoinClient

/-- Byte strings are lists of naturals; a well-formed byte is `< 256`. -/
abbrev Bytes := List Nat

/-- Modelled from the spec: `H256` is "a 32-byte value".  A byte string
is a well-formed `H256` when it has exactly 32 entries, each `< 256`. -/
def isH256 (bs : Bytes) : Prop := bs.length = 32 ∧ ∀ b ∈ bs, b < 256

instance (bs : Bytes) : Decidable (isH256 bs) := by
  unfold isH256; infer_instance

/-- Modelled from the spec: `H256` ordering "compare[s] as a single
256-bit big-endian unsigned integer"; this folds the bytes big-endian
into that integer. -/
def h256toNat (bs : Bytes) : Nat := bs.foldl (fun a b => 256 * a + b) 0

/-- Modelled from the spec: the strict `<` on `H256` used by the
proof-of-work test, big-endian unsigned comparison. -/
def h256lt (a b : Bytes) : Prop := h256toNat a < h256toNat b

instance (a b : Bytes) : Decidable (h256lt a b) := by
  unfold h256lt; infer_instance

/-- Big-endian byte encoding of `n` on `k` bytes, the model of Rust's
`to_be_bytes` on a `k`-byte integer type. -/
def beBytes : Nat → Nat → Bytes
  | 0, _ => []
  | k + 1, n => beBytes k (n / 256) ++ [n % 256]

theorem beBytes_length (k n : Nat) : (beBytes k n).length = k := by
  induction k generalizing n with
  | zero => rfl
  | succ k ih => simp [beBytes, ih]

theorem h256toNat_foldl (a : Nat) (l : Bytes) :
    List.foldl (fun x b => 256 * x + b) a l =
      a * 256 ^ l.length + List.foldl (fun x b => 256 * x + b) 0 l := by
  induction l generalizing a with
  | nil => simp
  | cons b l ih =>
      simp only [List.foldl_cons, List.length_cons]
      rw [ih (256 * a + b), ih (256 * 0 + b)]
      ring

theorem h256toNat_append (xs ys : Bytes) :
    h256toNat (xs ++ ys) = h256toNat xs * 256 ^ ys.length + h256toNat ys := by
  unfold h256toNat
  rw [List.foldl_append]
  exact h256toNat_foldl _ ys

/-- Decoding a big-endian encoding recovers the value modulo `256 ^ k`. -/
theorem h256toNat_beBytes (k n : Nat) : h256toNat (beBytes k n) = n % 256 ^ k := by
  induction k generalizing n with
  | zero => simp [beBytes, h256toNat, Nat.mod_one]
  | succ k ih =>
      rw [beBytes, h256toNat_append, ih]
      have h1 : n % (256 ^ k * 256) % 256 = n % 256 :=
        Nat.mod_mod_of_dvd n (Dvd.intro_left _ rfl)
      have h2 : n % (256 ^ k * 256) / 256 = n / 256 % 256 ^ k := by
        rw [mul_comm]
        exact Nat.mod_mul_right_div_self n 256 (256 ^ k)
      have h3 := Nat.div_add_mod (n % (256 ^ k * 256)) 256
      rw [h1, h2] at h3
      simp only [h256toNat, List.foldl_cons, List.foldl_nil, List.length_singleton,
        pow_one, pow_succ, Nat.mul_zero, Nat.zero_add]
      omega

/-- Big-endian encodings on `k` bytes are injective below `256 ^ k`. -/
theorem beBytes_inj {k m n : Nat} (hm : m < 256 ^ k) (hn : n < 256 ^ k)
    (h : beBytes k m = beBytes k n) : m = n := by
  have := congrArg h256toNat h
  rw [h256toNat_beBytes, h256toNat_beBytes, Nat.mod_eq_of_lt hm, Nat.mod_eq_of_lt hn] at this
  exact this

/-- The header of a block, translated from `block.rs`: parent hash,
32-bit nonce, difficulty target, millisecond timestamp (u64), Merkle
root of the content. -/
structure Header where
  parent : Bytes
  nonce : Nat
  difficulty : Bytes
  timestamp : Nat
  merkle_root : Bytes
deriving DecidableEq, Repr

/-- Well-formed header: both hash fields and the difficulty are 32-byte
values, the nonce fits in a `u32` and the timestamp in a `u64`. -/
def Header.wf (h : Header) : Prop :=
  isH256 h.parent ∧ h.nonce < 2 ^ 32 ∧ isH256 h.difficulty ∧
    h.timestamp < 2 ^ 64 ∧ isH256 h.merkle_root

instance (h : Header) : Decidable (Header.wf h) := by
  unfold Header.wf; infer_instance

section Sha

-- SHA-256 is an external primitive (the `ring` crate); the development
-- is parameterised over the hash function itself.
variable (sha : Bytes → Bytes)

/-- Model of the incremental `digest::Context` of the `ring` crate: the
context accumulates the bytes fed to `update`, and `finish` applies the
hash function to everything accumulated, in order. -/
def ctxUpdate (ctx chunk : Bytes) : Bytes := ctx ++ chunk

/-- Translated from `Header::hash` in `block.rs`: a fresh SHA-256
context is updated with the parent bytes, the nonce as 4 big-endian
bytes, the difficulty bytes, the timestamp as 8 big-endian bytes and
the Merkle-root bytes, then finished. -/
def Header.hash (h : Header) : Bytes :=
  sha (ctxUpdate (ctxUpdate (ctxUpdate (ctxUpdate (ctxUpdate []
    h.parent) (beBytes 4 h.nonce)) h.difficulty) (beBytes 8 h.timestamp)) h.merkle_root)

end Sha

/-- Translated from `Header::change_nonce` in `block.rs`:
`nonce.overflowing_add(1)`, i.e. increment modulo `2 ^ 32`. -/
def Header.change_nonce (h : Header) : Header :=
  { h with nonce := (h.nonce + 1) % 2 ^ 32 }

/-- Translated from `Header::new` in `block.rs`: the `u128` millisecond
timestamp is cast `as u64`, i.e. reduced modulo `2 ^ 64`. -/
def Header.new (parent : Bytes) (nonce : Nat) (timestamp : Nat)
    (difficulty : Bytes) (merkle_root : Bytes) : Header :=
  { parent := parent, nonce := nonce, difficulty := difficulty,
    timestamp := timestamp % 2 ^ 64, merkle_root := merkle_root }

/-- The byte string a header's hash is computed over, written as one
plain concatenation; `Header.hash` is proved equal to `sha` of this. -/
def headerHashInput (h : Header) : Bytes :=
  h.parent ++ beBytes 4 h.nonce ++ h.difficulty ++ beBytes 8 h.timestamp ++ h.merkle_root

/-- C1: For every header, `Header::hash()` equals SHA-256 of the
108-byte concatenation, in this exact order with no length prefixes or
separators: the 32 parent bytes, the nonce as 4 big-endian bytes, the
32 difficulty bytes, the timestamp as 8 big-endian bytes, the 32
merkle_root bytes. -/
theorem header_hash_is_sha256_of_108_byte_concat (sha : Bytes → Bytes) (h : Header)
    (hp : h.parent.length = 32) (hd : h.difficulty.length = 32)
    (hm : h.merkle_root.length = 32) :
    Header.hash sha h =
      sha (h.parent ++ beBytes 4 h.nonce ++ h.difficulty ++
             beBytes 8 h.timestamp ++ h.merkle_root) ∧
    (h.parent ++ beBytes 4 h.nonce ++ h.difficulty ++
       beBytes 8 h.timestamp ++ h.merkle_root).length = 108 := by
  constructor
  · simp [Header.hash, ctxUpdate]
  · simp [List.length_append, hp, hd, hm, beBytes_length]

/-- Witness for C1 at a concrete all-zero header. -/
theorem header_hash_is_sha256_of_108_byte_concat_witness :
    Header.hash (fun bs => bs) (Header.new (List.replicate 32 0) 0 0
        (List.replicate 32 0) (List.replicate 32 0)) =
      ((List.replicate 32 0 : Bytes) ++ beBytes 4 0 ++ List.replicate 32 0 ++
         beBytes 8 0 ++ List.replicate 32 0) ∧
    ((List.replicate 32 0 : Bytes) ++ beBytes 4 0 ++ List.replicate 32 0 ++
       beBytes 8 0 ++ List.replicate 32 0).length = 108 :=
  header_hash_is_sha256_of_108_byte_concat (fun bs => bs)
    (Header.new (List.replicate 32 0) 0 0 (List.replicate 32 0) (List.replicate 32 0))
    (by decide) (by decide) (by decide)

/-- Modelled from the spec: a transaction is "an opaque signed payload
exposing a content hash and a signature-validity predicate"
(`transaction.rs` is not part of the sources given).  `hash` is the
stored content hash (read as the field `t.hash` in `block.rs`), `sigOk`
the outcome of signature verification. -/
structure SignedTransaction where
  hash : Bytes
  sigOk : Bool
deriving DecidableEq, Repr

/-- Modelled from the spec: `sign_check() → bool` "verifies its embedded
signature"; in the model the outcome is carried by the transaction. -/
def SignedTransaction.sign_check (t : SignedTransaction) : Bool := t.sigOk

/-- Translated from `Content` in `block.rs`: an ordered sequence of
signed transactions. -/
structure Content where
  trans : List SignedTransaction
deriving DecidableEq, Repr

/-- Translated from `Content::new_with_trans` in `block.rs`. -/
def Content.new_with_trans (trans : List SignedTransaction) : Content :=
  { trans := trans }

/-- Translated from `Content::get_trans_hashes` in `block.rs`: the
hashes of the content's transactions, in order. -/
def Content.get_trans_hashes (c : Content) : List Bytes :=
  c.trans.map (fun t => t.hash)

/-- Lookup in the model of `HashMap<H256, SignedTransaction>`: the map
is an association list, keyed by the first component. -/
def lookupKey : List (Bytes × SignedTransaction) → Bytes → Option SignedTransaction
  | [], _ => none
  | kv :: rest, h => if kv.1 = h then some kv.2 else lookupKey rest h

/-- `HashMap::insert`: replaces the entry of an existing key, otherwise
adds a new entry. -/
def insertKV : List (Bytes × SignedTransaction) → Bytes → SignedTransaction →
    List (Bytes × SignedTransaction)
  | [], h, t => [(h, t)]
  | kv :: rest, h, t => if kv.1 = h then (h, t) :: rest else kv :: insertKV rest h t

/-- `HashMap::remove`: drops the entry of the key, if present. -/
def removeKV : List (Bytes × SignedTransaction) → Bytes → List (Bytes × SignedTransaction)
  | [], _ => []
  | kv :: rest, h => if kv.1 = h then rest else kv :: removeKV rest h

/-- Keys of the association list are pairwise distinct — the `HashMap`
representation invariant. -/
def keysNodup (l : List (Bytes × SignedTransaction)) : Prop :=
  (l.map Prod.fst).Nodup

instance (l : List (Bytes × SignedTransaction)) : Decidable (keysNodup l) := by
  unfold keysNodup; infer_instance

theorem lookupKey_eq_none_iff (l : List (Bytes × SignedTransaction)) (h : Bytes) :
    lookupKey l h = none ↔ h ∉ l.map Prod.fst := by
  induction l with
  | nil => simp [lookupKey]
  | cons kv rest ih =>
      by_cases hk : kv.1 = h
      · simp [lookupKey, hk]
      · simp [lookupKey, hk, ih, Ne.symm hk]

theorem lookupKey_insertKV_self (l : List (Bytes × SignedTransaction))
    (h : Bytes) (t : SignedTransaction) : lookupKey (insertKV l h t) h = some t := by
  induction l with
  | nil => simp [insertKV, lookupKey]
  | cons kv rest ih =>
      by_cases hk : kv.1 = h
      · simp [insertKV, hk, lookupKey]
      · simp [insertKV, hk, lookupKey, ih]

theorem lookupKey_insertKV_other (l : List (Bytes × SignedTransaction))
    (h : Bytes) (t : SignedTransaction) (h' : Bytes) (hne : h' ≠ h) :
    lookupKey (insertKV l h t) h' = lookupKey l h' := by
  induction l with
  | nil => simp [insertKV, lookupKey, Ne.symm hne]
  | cons kv rest ih =>
      by_cases hk : kv.1 = h
      · simp [insertKV, hk, lookupKey, Ne.symm hne]
      · simp only [insertKV, if_neg hk, lookupKey, ih]

theorem length_insertKV_absent (l : List (Bytes × SignedTransaction))
    (h : Bytes) (t : SignedTransaction) (habs : lookupKey l h = none) :
    (insertKV l h t).length = l.length + 1 := by
  induction l with
  | nil => simp [insertKV]
  | cons kv rest ih =>
      by_cases hk : kv.1 = h
      · simp [lookupKey, hk] at habs
      · simp [lookupKey, hk] at habs
        simp [insertKV, hk, ih habs]

theorem keys_insertKV_absent (l : List (Bytes × SignedTransaction))
    (h : Bytes) (t : SignedTransaction) (habs : lookupKey l h = none) :
    (insertKV l h t).map Prod.fst = l.map Prod.fst ++ [h] := by
  induction l with
  | nil => simp [insertKV]
  | cons kv rest ih =>
      by_cases hk : kv.1 = h
      · simp [lookupKey, hk] at habs
      · simp [lookupKey, hk] at habs
        simp [insertKV, hk, ih habs]

theorem keys_insertKV_present (l : List (Bytes × SignedTransaction))
    (h : Bytes) (t : SignedTransaction) (hp : lookupKey l h ≠ none) :
    (insertKV l h t).map Prod.fst = l.map Prod.fst := by
  induction l with
  | nil => simp [lookupKey] at hp
  | cons kv rest ih =>
      by_cases hk : kv.1 = h
      · simp [insertKV, hk]
      · simp only [lookupKey, if_neg hk] at hp
        simp [insertKV, hk, ih hp]

theorem keysNodup_insertKV (l : List (Bytes × SignedTransaction))
    (h : Bytes) (t : SignedTransaction) (hnd : keysNodup l) :
    keysNodup (insertKV l h t) := by
  induction l with
  | nil => simp [insertKV, keysNodup]
  | cons kv rest ih =>
      unfold keysNodup at hnd
      simp only [List.map_cons, List.nodup_cons] at hnd
      by_cases hk : kv.1 = h
      · unfold keysNodup
        simp only [insertKV, if_pos hk, List.map_cons, List.nodup_cons]
        exact ⟨hk ▸ hnd.1, hnd.2⟩
      · unfold keysNodup at ih ⊢
        simp only [insertKV, if_neg hk, List.map_cons, List.nodup_cons]
        refine ⟨?_, ih hnd.2⟩
        intro hmem
        by_cases habs : lookupKey rest h = none
        · rw [keys_insertKV_absent rest h t habs] at hmem
          rcases List.mem_append.mp hmem with hm | hm
          · exact hnd.1 hm
          · simp at hm
            exact hk hm
        · rw [keys_insertKV_present rest h t habs] at hmem
          exact hnd.1 hmem

theorem removeKV_sublist (l : List (Bytes × SignedTransaction)) (h : Bytes) :
    List.Sublist (removeKV l h) l := by
  induction l with
  | nil => simp [removeKV]
  | cons kv rest ih =>
      by_cases hk : kv.1 = h
      · simp only [removeKV, if_pos hk]
        exact List.sublist_cons_self kv rest
      · simp only [removeKV, if_neg hk]
        exact List.Sublist.cons₂ kv ih

theorem keysNodup_removeKV (l : List (Bytes × SignedTransaction)) (h : Bytes)
    (hnd : keysNodup l) : keysNodup (removeKV l h) :=
  ((removeKV_sublist l h).map Prod.fst).nodup hnd

theorem length_removeKV_le (l : List (Bytes × SignedTransaction)) (h : Bytes) :
    (removeKV l h).length ≤ l.length :=
  (removeKV_sublist l h).length_le

theorem lookupKey_removeKV_self (l : List (Bytes × SignedTransaction)) (h : Bytes)
    (hnd : keysNodup l) : lookupKey (removeKV l h) h = none := by
  induction l with
  | nil => simp [removeKV, lookupKey]
  | cons kv rest ih =>
      unfold keysNodup at hnd
      simp only [List.map_cons, List.nodup_cons] at hnd
      by_cases hk : kv.1 = h
      · simp only [removeKV, if_pos hk]
        exact (lookupKey_eq_none_iff rest h).mpr (hk ▸ hnd.1)
      · simp only [removeKV, if_neg hk, lookupKey, if_neg hk]
        exact ih hnd.2

theorem lookupKey_removeKV_other (l : List (Bytes × SignedTransaction))
    (h h' : Bytes) (hne : h' ≠ h) :
    lookupKey (removeKV l h) h' = lookupKey l h' := by
  induction l with
  | nil => simp [removeKV]
  | cons kv rest ih =>
      by_cases hk : kv.1 = h
      · simp only [removeKV, if_pos hk, lookupKey, if_neg (hk.symm ▸ Ne.symm hne : ¬kv.1 = h')]
      · simp only [removeKV, if_neg hk, lookupKey, ih]

/-- Translated from `MemPool` in `mempool.rs`: a map from transaction
hash to signed transaction, modelled as an association list. -/
structure MemPool where
  transactions : List (Bytes × SignedTransaction)
deriving DecidableEq, Repr

/-- Translated from `MemPool::new`: the empty pool. -/
def MemPool.new : MemPool := { transactions := [] }

/-- Translated from `MemPool::new_with_trans`: insert each given
transaction, keyed by its hash, into a fresh map. -/
def MemPool.new_with_trans (trans : List SignedTransaction) : MemPool :=
  { transactions := trans.foldl (fun m t => insertKV m t.hash t) [] }

/-- Translated from `MemPool::size`: the number of entries. -/
def MemPool.size (p : MemPool) : Nat := p.transactions.length

/-- Translated from `MemPool::empty`: whether the map has no entry. -/
def MemPool.empty (p : MemPool) : Bool := p.transactions.isEmpty

/-- Translated from `MemPool::exist`: key membership. -/
def MemPool.exist (p : MemPool) (h : Bytes) : Bool :=
  (lookupKey p.transactions h).isSome

/-- Translated from `MemPool::add_with_check` in `mempool.rs`; the
configuration constant `POOL_SIZE_LIMIT` is the parameter `limit`.
Rejects when the hash is present, the signature check fails, or
`size() >= POOL_SIZE_LIMIT`; otherwise inserts keyed by the hash. -/
def MemPool.add_with_check (limit : Nat) (p : MemPool) (tran : SignedTransaction) :
    Bool × MemPool :=
  let h := tran.hash
  if p.exist h || !tran.sign_check || decide (limit ≤ p.size) then
    (false, p)
  else
    (true, { transactions := insertKV p.transactions h tran })

/-- One step of `MemPool::remove_trans`: remove the hash if present,
silently skip it otherwise. -/
def removeStep (m : List (Bytes × SignedTransaction)) (h : Bytes) :
    List (Bytes × SignedTransaction) :=
  if (lookupKey m h).isSome then removeKV m h else m

/-- Translated from `MemPool::remove_trans` in `mempool.rs`: iterate
over the listed hashes, removing each one that is present. -/
def MemPool.remove_trans (p : MemPool) (hs : List Bytes) : MemPool :=
  { transactions := hs.foldl removeStep p.transactions }

/-- Translated from `MemPool::get_trans` in `mempool.rs`: the present
transactions in the order of the input hashes, misses skipped. -/
def MemPool.get_trans (p : MemPool) (hs : List Bytes) : List SignedTransaction :=
  hs.filterMap (fun h => lookupKey p.transactions h)

/-- Translated from `MemPool::create_content` in `mempool.rs`: take
`min(BLOCK_SIZE_LIMIT, size())` transactions in the map's iteration
order (the parameter `blockLimit` is `BLOCK_SIZE_LIMIT`); the model's
iteration order is the list order. -/
def MemPool.create_content (blockLimit : Nat) (p : MemPool) : Content :=
  Content.new_with_trans
    ((p.transactions.take (min blockLimit p.size)).map Prod.snd)

theorem removeStep_keysNodup (m : List (Bytes × SignedTransaction)) (h : Bytes)
    (hnd : keysNodup m) : keysNodup (removeStep m h) := by
  unfold removeStep
  by_cases hp : (lookupKey m h).isSome
  · simp only [if_pos hp]
    exact keysNodup_removeKV m h hnd
  · simp only [if_neg hp]
    exact hnd

theorem removeStep_length_le (m : List (Bytes × SignedTransaction)) (h : Bytes) :
    (removeStep m h).length ≤ m.length := by
  unfold removeStep
  by_cases hp : (lookupKey m h).isSome
  · simp only [if_pos hp]
    exact length_removeKV_le m h
  · simp only [if_neg hp]
    exact Nat.le_refl _

theorem removeStep_lookup_self (m : List (Bytes × SignedTransaction)) (h : Bytes)
    (hnd : keysNodup m) : lookupKey (removeStep m h) h = none := by
  unfold removeStep
  by_cases hp : (lookupKey m h).isSome
  · simp only [if_pos hp]
    exact lookupKey_removeKV_self m h hnd
  · simp only [if_neg hp]
    exact Option.not_isSome_iff_eq_none.mp hp

theorem removeStep_lookup_other (m : List (Bytes × SignedTransaction))
    (h h' : Bytes) (hne : h' ≠ h) :
    lookupKey (removeStep m h) h' = lookupKey m h' := by
  unfold removeStep
  by_cases hp : (lookupKey m h).isSome
  · simp only [if_pos hp]
    exact lookupKey_removeKV_other m h h' hne
  · simp only [if_neg hp]

theorem foldl_removeStep_keysNodup (hs : List Bytes)
    (m : List (Bytes × SignedTransaction)) (hnd : keysNodup m) :
    keysNodup (hs.foldl removeStep m) := by
  induction hs generalizing m with
  | nil => exact hnd
  | cons h hs ih =>
      exact ih (removeStep m h) (removeStep_keysNodup m h hnd)

theorem foldl_removeStep_length_le (hs : List Bytes)
    (m : List (Bytes × SignedTransaction)) :
    (hs.foldl removeStep m).length ≤ m.length := by
  induction hs generalizing m with
  | nil => exact Nat.le_refl _
  | cons h hs ih =>
      exact Nat.le_trans (ih (removeStep m h)) (removeStep_length_le m h)

theorem foldl_removeStep_lookup_not_mem (hs : List Bytes)
    (m : List (Bytes × SignedTransaction)) (h : Bytes) (hnm : h ∉ hs) :
    lookupKey (hs.foldl removeStep m) h = lookupKey m h := by
  induction hs generalizing m with
  | nil => rfl
  | cons h' hs ih =>
      simp only [List.mem_cons, not_or] at hnm
      simp only [List.foldl_cons]
      rw [ih (removeStep m h') hnm.2]
      exact removeStep_lookup_other m h' h hnm.1

theorem foldl_removeStep_lookup_mem (hs : List Bytes)
    (m : List (Bytes × SignedTransaction)) (h : Bytes)
    (hnd : keysNodup m) (hm : h ∈ hs) :
    lookupKey (hs.foldl removeStep m) h = none := by
  induction hs generalizing m with
  | nil => simp at hm
  | cons h' hs ih =>
      simp only [List.foldl_cons]
      by_cases hmem : h ∈ hs
      · exact ih (removeStep m h') (removeStep_keysNodup m h' hnd) hmem
      · have hh : h = h' := by
          rcases List.mem_cons.mp hm with he | he
          · exact he
          · exact absurd he hmem
        subst hh
        rw [foldl_removeStep_lookup_not_mem hs (removeStep m h) h hmem]
        exact removeStep_lookup_self m h hnd

/-- Every entry of the map keys a transaction by that transaction's own
hash. -/
def keyedByHash (l : List (Bytes × SignedTransaction)) : Prop :=
  ∀ kv ∈ l, kv.1 = kv.2.hash

theorem mem_insertKV (l : List (Bytes × SignedTransaction))
    (h : Bytes) (t : SignedTransaction) (kv : Bytes × SignedTransaction)
    (hm : kv ∈ insertKV l h t) : kv ∈ l ∨ kv = (h, t) := by
  induction l with
  | nil =>
      simp [insertKV] at hm
      exact Or.inr hm
  | cons kv' rest ih =>
      by_cases hk : kv'.1 = h
      · simp only [insertKV, if_pos hk, List.mem_cons] at hm
        rcases hm with he | he
        · exact Or.inr he
        · exact Or.inl (List.mem_cons_of_mem kv' he)
      · simp only [insertKV, if_neg hk, List.mem_cons] at hm
        rcases hm with he | he
        · exact Or.inl (he ▸ List.mem_cons_self kv' rest)
        · rcases ih he with hi | hi
          · exact Or.inl (List.mem_cons_of_mem kv' hi)
          · exact Or.inr hi

theorem keyedByHash_insertKV (l : List (Bytes × SignedTransaction))
    (t : SignedTransaction) (hkb : keyedByHash l) :
    keyedByHash (insertKV l t.hash t) := by
  intro kv hm
  rcases mem_insertKV l t.hash t kv hm with hi | hi
  · exact hkb kv hi
  · rw [hi]

theorem removeStep_sublist (m : List (Bytes × SignedTransaction)) (h : Bytes) :
    List.Sublist (removeStep m h) m := by
  unfold removeStep
  by_cases hp : (lookupKey m h).isSome
  · simp only [if_pos hp]
    exact removeKV_sublist m h
  · simp only [if_neg hp]
    exact List.Sublist.refl m

theorem foldl_removeStep_sublist (hs : List Bytes)
    (m : List (Bytes × SignedTransaction)) :
    List.Sublist (hs.foldl removeStep m) m := by
  induction hs generalizing m with
  | nil => exact List.Sublist.refl m
  | cons h hs ih =>
      exact List.Sublist.trans (ih (removeStep m h)) (removeStep_sublist m h)

theorem keyedByHash_sublist (l m : List (Bytes × SignedTransaction))
    (hs : List.Sublist l m) (hkb : keyedByHash m) : keyedByHash l :=
  fun kv hm => hkb kv (hs.mem hm)

/-- C4: For every mempool `p` and transaction `t`, `add_with_check(t)`
returns `false` and leaves `p` unchanged when a transaction with the
same hash exists, `t.sign_check()` is false, or the pool already holds
`POOL_SIZE_LIMIT` entries; otherwise it inserts `t` keyed by its hash
and returns `true`. -/
theorem add_with_check_spec (limit : Nat) (p : MemPool) (t : SignedTransaction) :
    ((p.exist t.hash = true ∨ t.sign_check = false ∨ limit ≤ p.size) →
      MemPool.add_with_check limit p t = (false, p)) ∧
    (p.exist t.hash = false → t.sign_check = true → p.size < limit →
      (MemPool.add_with_check limit p t).1 = true ∧
      lookupKey (MemPool.add_with_check limit p t).2.transactions t.hash = some t ∧
      (∀ h', h' ≠ t.hash →
        lookupKey (MemPool.add_with_check limit p t).2.transactions h' =
          lookupKey p.transactions h') ∧
      (MemPool.add_with_check limit p t).2.size = p.size + 1) := by
  constructor
  · intro hrej
    unfold MemPool.add_with_check
    have hc : (p.exist t.hash || !t.sign_check || decide (limit ≤ p.size)) = true := by
      rcases hrej with h | h | h
      · simp [h]
      · simp [h]
      · simp [h]
    simp [hc]
  · intro h1 h2 h3
    have hc : (p.exist t.hash || !t.sign_check || decide (limit ≤ p.size)) = false := by
      simp [h1, h2, Nat.not_le.mpr h3]
    have habs : lookupKey p.transactions t.hash = none := by
      unfold MemPool.exist at h1
      exact Option.not_isSome_iff_eq_none.mp (by rw [h1]; exact Bool.false_ne_true)
    have hres : MemPool.add_with_check limit p t =
        (true, { transactions := insertKV p.transactions t.hash t }) := by
      unfold MemPool.add_with_check
      simp [hc]
    refine ⟨by rw [hres], ?_, ?_, ?_⟩
    · rw [hres]
      exact lookupKey_insertKV_self _ _ _
    · intro h' hne
      rw [hres]
      exact lookupKey_insertKV_other _ _ _ _ hne
    · rw [hres]
      exact length_insertKV_absent _ _ _ habs

/-- Witness for C4: a fresh valid transaction enters an empty pool of
capacity one; re-adding it, or adding to a full pool, is rejected. -/
theorem add_with_check_spec_witness :
    ((MemPool.add_with_check 1 MemPool.new ⟨List.replicate 32 0, true⟩).1 = true ∧
      (MemPool.add_with_check 1 MemPool.new ⟨List.replicate 32 0, true⟩).2.size =
        MemPool.new.size + 1) ∧
    MemPool.add_with_check 0 MemPool.new ⟨List.replicate 32 0, true⟩ =
      (false, MemPool.new) := by
  constructor
  · have h := (add_with_check_spec 1 MemPool.new ⟨List.replicate 32 0, true⟩).2
      (by decide) (by decide) (by decide)
    exact ⟨h.1, h.2.2.2⟩
  · exact (add_with_check_spec 0 MemPool.new ⟨List.replicate 32 0, true⟩).1
      (Or.inr (Or.inr (Nat.le_refl 0)))

/-- C8: For every mempool `p` and list of hashes `hs`, `remove_trans(hs)`
removes each hash in `hs` that is present, silently skips absent hashes
(the operation is total and never fails), and leaves every entry whose
hash is not listed unchanged. -/
theorem remove_trans_spec (p : MemPool) (hs : List Bytes)
    (hnd : keysNodup p.transactions) :
    (∀ h ∈ hs, lookupKey (p.remove_trans hs).transactions h = none) ∧
    (∀ h, h ∉ hs →
      lookupKey (p.remove_trans hs).transactions h = lookupKey p.transactions h) ∧
    keysNodup (p.remove_trans hs).transactions ∧
    (p.remove_trans hs).size ≤ p.size := by
  refine ⟨?_, ?_, ?_, ?_⟩
  · intro h hm
    exact foldl_removeStep_lookup_mem hs p.transactions h hnd hm
  · intro h hnm
    exact foldl_removeStep_lookup_not_mem hs p.transactions h hnm
  · exact foldl_removeStep_keysNodup hs p.transactions hnd
  · exact foldl_removeStep_length_le hs p.transactions

/-- Witness for C8: from a two-entry pool, removing one present and one
absent hash drops the present one, skips the miss, and keeps the
unlisted entry. -/
theorem remove_trans_spec_witness :
    lookupKey ((MemPool.mk [(List.replicate 32 0, ⟨List.replicate 32 0, true⟩),
        (List.replicate 32 1, ⟨List.replicate 32 1, true⟩)]).remove_trans
        [List.replicate 32 0, List.replicate 32 2]).transactions
      (List.replicate 32 0) = none ∧
    lookupKey ((MemPool.mk [(List.replicate 32 0, ⟨List.replicate 32 0, true⟩),
        (List.replicate 32 1, ⟨List.replicate 32 1, true⟩)]).remove_trans
        [List.replicate 32 0, List.replicate 32 2]).transactions
      (List.replicate 32 1) =
      lookupKey (MemPool.mk [(List.replicate 32 0, ⟨List.replicate 32 0, true⟩),
        (List.replicate 32 1, ⟨List.replicate 32 1, true⟩)]).transactions
      (List.replicate 32 1) := by
  have h := remove_trans_spec
    (MemPool.mk [(List.replicate 32 0, ⟨List.replicate 32 0, true⟩),
      (List.replicate 32 1, ⟨List.replicate 32 1, true⟩)])
    [List.replicate 32 0, List.replicate 32 2] (by decide)
  exact ⟨h.1 (List.replicate 32 0) (by decide), h.2.1 (List.replicate 32 1) (by decide)⟩

/-- States reachable from `p0` by the public mempool operations; only
`add_with_check` and `remove_trans` mutate the pool (`create_content`,
`exist`, `get_trans`, `size` and `empty` take `&self` or return fresh
data and leave the map as it is). -/
inductive Reachable (limit : Nat) (p0 : MemPool) : MemPool → Prop where
  | init : Reachable limit p0 p0
  | add (q : MemPool) (t : SignedTransaction) :
      Reachable limit p0 q → Reachable limit p0 (MemPool.add_with_check limit q t).2
  | remove (q : MemPool) (hs : List Bytes) :
      Reachable limit p0 q → Reachable limit p0 (q.remove_trans hs)

theorem keysNodup_new_with_trans_aux (trans : List SignedTransaction)
    (m : List (Bytes × SignedTransaction)) (hnd : keysNodup m) (hkb : keyedByHash m) :
    keysNodup (trans.foldl (fun m t => insertKV m t.hash t) m) ∧
    keyedByHash (trans.foldl (fun m t => insertKV m t.hash t) m) := by
  induction trans generalizing m with
  | nil => exact ⟨hnd, hkb⟩
  | cons t trans ih =>
      exact ih (insertKV m t.hash t) (keysNodup_insertKV m t.hash t hnd)
        (keyedByHash_insertKV m t hkb)

theorem keysNodup_new_with_trans (trans : List SignedTransaction) :
    keysNodup (MemPool.new_with_trans trans).transactions ∧
    keyedByHash (MemPool.new_with_trans trans).transactions :=
  keysNodup_new_with_trans_aux trans [] (by simp [keysNodup]) (by intro kv hm; simp at hm)

/-- Preservation of the representation invariants along any reachable
trace: keys stay unique and keyed by the transactions' own hashes, and
the size never exceeds the larger of `POOL_SIZE_LIMIT` and the initial
load. -/
theorem reachable_invariant (limit : Nat) (p0 p : MemPool)
    (hnd0 : keysNodup p0.transactions) (hkb0 : keyedByHash p0.transactions)
    (hr : Reachable limit p0 p) :
    keysNodup p.transactions ∧ keyedByHash p.transactions ∧
      p.size ≤ max limit p0.size := by
  induction hr with
  | init => exact ⟨hnd0, hkb0, Nat.le_max_right _ _⟩
  | add q t _ ih =>
      rcases ih with ⟨hnd, hkb, hsz⟩
      by_cases hc : (q.exist t.hash || !t.sign_check || decide (limit ≤ q.size)) = true
      · have : MemPool.add_with_check limit q t = (false, q) := by
          unfold MemPool.add_with_check
          simp [hc]
        rw [this]
        exact ⟨hnd, hkb, hsz⟩
      · have hcf : (q.exist t.hash || !t.sign_check || decide (limit ≤ q.size)) = false :=
          Bool.not_eq_true _ ▸ Bool.of_not_eq_true hc
        have hcf' : ((lookupKey q.transactions t.hash).isSome = false ∧
            t.sign_check = true) ∧ q.size < limit := by
          simpa [MemPool.exist] using hcf
        have hlt : q.size < limit := hcf'.2
        have habs : lookupKey q.transactions t.hash = none :=
          Option.not_isSome_iff_eq_none.mp (by rw [hcf'.1.1]; exact Bool.false_ne_true)
        have hres : MemPool.add_with_check limit q t =
            (true, { transactions := insertKV q.transactions t.hash t }) := by
          unfold MemPool.add_with_check
          simp [hcf]
        rw [hres]
        refine ⟨keysNodup_insertKV _ _ _ hnd, keyedByHash_insertKV _ _ hkb, ?_⟩
        show (insertKV q.transactions t.hash t).length ≤ max limit p0.size
        rw [length_insertKV_absent _ _ _ habs]
        exact Nat.le_trans (Nat.succ_le_of_lt hlt) (Nat.le_max_left _ _)
  | remove q hs _ ih =>
      rcases ih with ⟨hnd, hkb, hsz⟩
      refine ⟨foldl_removeStep_keysNodup hs q.transactions hnd,
        keyedByHash_sublist _ _ (foldl_removeStep_sublist hs q.transactions) hkb, ?_⟩
      exact Nat.le_trans (foldl_removeStep_length_le hs q.transactions) hsz

/-- Counterexample to C7 as stated: `MemPool::new_with_trans` performs
plain inserts with no capacity check, so an initial load of two distinct
transactions already violates the `POOL_SIZE_LIMIT` bound when the limit
is 1 — and that state is reachable (it is the initial state). -/
theorem mempool_invariant_counterexample :
    ¬ (∀ (limit : Nat) (trans : List SignedTransaction) (p : MemPool),
        (Reachable limit MemPool.new p ∨
          Reachable limit (MemPool.new_with_trans trans) p) →
        keyedByHash p.transactions ∧ keysNodup p.transactions ∧ p.size ≤ limit) := by
  intro hcl
  have h := hcl 1 [⟨List.replicate 32 0, true⟩, ⟨List.replicate 32 1, true⟩]
      (MemPool.new_with_trans [⟨List.replicate 32 0, true⟩, ⟨List.replicate 32 1, true⟩])
      (Or.inr Reachable.init)
  have hsz : (MemPool.new_with_trans
      [⟨List.replicate 32 0, true⟩, ⟨List.replicate 32 1, true⟩]).size = 2 := by decide
  rw [hsz] at h
  exact absurd h.2.2 (by decide)

/-- C7 (amended): for every state reachable from `MemPool::new()` the
map is keyed by transaction hash with unique keys and its size is
bounded by `POOL_SIZE_LIMIT`; for states reachable from
`MemPool::new_with_trans(trans)` the keying and uniqueness still hold,
but the size is only bounded by the larger of `POOL_SIZE_LIMIT` and the
initial load (`new_with_trans` does not enforce the capacity). -/
theorem mempool_invariant_amended (limit : Nat) (trans : List SignedTransaction)
    (p : MemPool) :
    (Reachable limit MemPool.new p →
      keyedByHash p.transactions ∧ keysNodup p.transactions ∧ p.size ≤ limit) ∧
    (Reachable limit (MemPool.new_with_trans trans) p →
      keyedByHash p.transactions ∧ keysNodup p.transactions ∧
        p.size ≤ max limit (MemPool.new_with_trans trans).size) := by
  constructor
  · intro hr
    have h := reachable_invariant limit MemPool.new p (by simp [MemPool.new, keysNodup])
      (by intro kv hm; simp [MemPool.new] at hm) hr
    refine ⟨h.2.1, h.1, ?_⟩
    have : max limit MemPool.new.size = limit := by
      simp [MemPool.new, MemPool.size]
    exact this ▸ h.2.2
  · intro hr
    have hbase := keysNodup_new_with_trans trans
    have h := reachable_invariant limit (MemPool.new_with_trans trans) p
      hbase.1 hbase.2 hr
    exact ⟨h.2.1, h.1, h.2.2⟩

/-- Witness for the amended C7 at the counterexample's own input: the
overfull initial state keeps unique hash-keys, and its size meets the
weakened bound. -/
theorem mempool_invariant_amended_witness :
    keyedByHash (MemPool.new_with_trans
      [⟨List.replicate 32 0, true⟩, ⟨List.replicate 32 1, true⟩]).transactions ∧
    keysNodup (MemPool.new_with_trans
      [⟨List.replicate 32 0, true⟩, ⟨List.replicate 32 1, true⟩]).transactions ∧
    (MemPool.new_with_trans
      [⟨List.replicate 32 0, true⟩, ⟨List.replicate 32 1, true⟩]).size ≤
      max 1 (MemPool.new_with_trans
        [⟨List.replicate 32 0, true⟩, ⟨List.replicate 32 1, true⟩]).size :=
  (mempool_invariant_amended 1
    [⟨List.replicate 32 0, true⟩, ⟨List.replicate 32 1, true⟩]
    (MemPool.new_with_trans
      [⟨List.replicate 32 0, true⟩, ⟨List.replicate 32 1, true⟩])).2 Reachable.init

/-- Modelled from the spec: one level of the Merkle tree pairs adjacent
nodes left to right, duplicating the last node when the count is odd;
each parent is SHA-256 of the two children concatenated. -/
def pairUp (sha : Bytes → Bytes) : List Bytes → List Bytes
  | [] => []
  | [x] => [sha (x ++ x)]
  | x :: y :: rest => sha (x ++ y) :: pairUp sha rest

theorem pairUp_length (sha : Bytes → Bytes) :
    ∀ l : List Bytes, (pairUp sha l).length = (l.length + 1) / 2
  | [] => by simp [pairUp]
  | [x] => by simp [pairUp]
  | x :: y :: rest => by
      simp only [pairUp, List.length_cons, pairUp_length sha rest]
      omega

/-- Modelled from the spec: collapse the levels of the Merkle tree until
a single root remains; an empty level yields the zero hash. -/
def merkleCombine (sha : Bytes → Bytes) (l : List Bytes) : Bytes :=
  match l with
  | [] => List.replicate 32 0
  | [x] => x
  | x :: y :: rest => merkleCombine sha (pairUp sha (x :: y :: rest))
termination_by l.length
decreasing_by
  simp only [pairUp, List.length_cons, pairUp_length sha rest]
  omega

/-- Translated from `Content::merkle_root` in `block.rs`, with the
Merkle tree itself modelled from the spec: the root over the content's
transaction hashes in their given order. -/
def Content.merkle_root (sha : Bytes → Bytes) (c : Content) : Bytes :=
  merkleCombine sha (c.trans.map (fun t => t.hash))

/-- Translated from `Block` in `block.rs`: stored header hash, distance
from genesis, header and content. -/
structure Block where
  hash : Bytes
  index : Nat
  header : Header
  content : Content
deriving DecidableEq, Repr

/-- Translated from `Block::new` in `block.rs`: the stored hash is the
header's hash and the index starts at 0. -/
def Block.new (sha : Bytes → Bytes) (header : Header) (content : Content) : Block :=
  { hash := Header.hash sha header, index := 0, header := header, content := content }

/-- Modelled from the spec: the canonical binary encoding (`bincode`) of
a signed transaction — the encoding itself is external to the sources,
the spec requires only that it is deterministic and canonical.  The
model encodes the transaction's observable fields, fixed-width. -/
def encodeTrans (t : SignedTransaction) : Bytes :=
  t.hash ++ [cond t.sigOk 1 0]

/-- Canonical encoding of a transaction sequence: each element in
order (elements are fixed-width once hashes are 32 bytes). -/
def encodeTransList : List SignedTransaction → Bytes
  | [] => []
  | t :: ts => encodeTrans t ++ encodeTransList ts

/-- Modelled from the spec: canonical encoding of the content — the
transaction count followed by the encoded transactions. -/
def encodeContent (c : Content) : Bytes :=
  beBytes 8 c.trans.length ++ encodeTransList c.trans

/-- Modelled from the spec: canonical encoding of a header, its five
fields in order, integers fixed-width. -/
def encodeHeader (h : Header) : Bytes :=
  h.parent ++ beBytes 4 h.nonce ++ h.difficulty ++ beBytes 8 h.timestamp ++ h.merkle_root

/-- Modelled from the spec: canonical serialized representation of a
block (`bincode::serialize`), its four fields in order. -/
def serializeBlock (b : Block) : Bytes :=
  b.hash ++ beBytes 8 b.index ++ encodeHeader b.header ++ encodeContent b.content

/-- Translated from `impl PartialEq<Block> for Block` in `block.rs`:
two blocks are equal when their serialized representations are
byte-equal. -/
def Block.eqSer (b1 b2 : Block) : Prop :=
  serializeBlock b1 = serializeBlock b2

instance (b1 b2 : Block) : Decidable (Block.eqSer b1 b2) := by
  unfold Block.eqSer; infer_instance

/-- Well-formed content: a representable transaction count and 32-byte
transaction hashes. -/
def Content.wf (c : Content) : Prop :=
  c.trans.length < 2 ^ 64 ∧ ∀ t ∈ c.trans, t.hash.length = 32

instance (c : Content) : Decidable (Content.wf c) := by
  unfold Content.wf; infer_instance

/-- Well-formed block: 32-byte stored hash, representable index,
well-formed header and content. -/
def Block.wf (b : Block) : Prop :=
  b.hash.length = 32 ∧ b.index < 2 ^ 64 ∧ b.header.wf ∧ b.content.wf

instance (b : Block) : Decidable (Block.wf b) := by
  unfold Block.wf; infer_instance

/-- Iterated `change_nonce`, the effect of `i` failed probes. -/
def iterNonce : Nat → Header → Header
  | 0, h => h
  | k + 1, h => iterNonce k h.change_nonce

/-- Translated from `mining_base` in `miner.rs`: probe up to `step`
nonces (`step` is the configuration constant `MINING_STEP`); a probe
wins when the header hash is strictly below the difficulty, otherwise
the nonce wraps forward by one.  The final header is returned alongside
the outcome because the Rust function mutates it in place. -/
def mining_base (sha : Bytes → Bytes) : Nat → Header → Bytes → Bool × Header
  | 0, header, _ => (false, header)
  | k + 1, header, difficulty =>
      if h256lt (Header.hash sha header) difficulty then (true, header)
      else mining_base sha k header.change_nonce difficulty

/-- Modelled from the spec: the only gossip message the core emits. -/
inductive Message where
  | NewBlockHashes (hashes : List Bytes)
deriving DecidableEq, Repr

/-- The miner's observable state: the local chain (modelled from the
spec as the store of inserted blocks, `insert` being unconditional),
the shared mempool, the rolling nonce cursor, the mined-block count and
the log of broadcast messages (the network handle is external; a
broadcast appends to the log). -/
structure NodeState where
  blockchain : List Block
  mempool : MemPool
  nonce : Nat
  mined_num : Nat
  broadcasts : List Message
deriving DecidableEq, Repr

/-- Translated from `Context::found` in `miner.rs`: insert the block
into the chain, remove the content's transaction hashes from the
mempool, count the mined block, broadcast `NewBlockHashes([hash])`. -/
def found (s : NodeState) (block : Block) : NodeState :=
  { blockchain := s.blockchain ++ [block],
    mempool := s.mempool.remove_trans block.content.get_trans_hashes,
    nonce := s.nonce,
    mined_num := s.mined_num + 1,
    broadcasts := s.broadcasts ++ [Message.NewBlockHashes [block.hash]] }

/-- Translated from `Context::mining` in `miner.rs`: with the chain's
`tip` and `difficulty` snapshot and the current time `ts` supplied as
inputs, return false at once on an empty mempool; otherwise build a
candidate from `create_content`, probe `miningStep` nonces starting at
the rolling cursor, and on success commit via `found` and reset the
cursor to 0, on failure advance the cursor to the last probed nonce. -/
def mining (sha : Bytes → Bytes) (miningStep blockLimit : Nat) (s : NodeState)
    (tip difficulty : Bytes) (ts : Nat) : Bool × NodeState :=
  if s.mempool.size = 0 then (false, s)
  else
    let content := s.mempool.create_content blockLimit
    let header := Header.new tip s.nonce ts difficulty (Content.merkle_root sha content)
    match mining_base sha miningStep header difficulty with
    | (true, h) => (true, { found s (Block.new sha h content) with nonce := 0 })
    | (false, h) => (false, { s with nonce := h.nonce })

theorem iterNonce_nonce (k : Nat) (h : Header) (hn : h.nonce < 2 ^ 32) :
    (iterNonce k h).nonce = (h.nonce + k) % 2 ^ 32 := by
  induction k generalizing h with
  | zero =>
      simp only [iterNonce, Nat.add_zero]
      exact (Nat.mod_eq_of_lt hn).symm
  | succ k ih =>
      show (iterNonce k h.change_nonce).nonce = _
      rw [ih h.change_nonce (Nat.mod_lt _ (by norm_num))]
      show (((h.nonce + 1) % 2 ^ 32) + k) % 2 ^ 32 = _
      rw [Nat.mod_add_mod]
      congr 1
      omega

theorem mining_base_true_iff (sha : Bytes → Bytes) (step : Nat) (h : Header)
    (d : Bytes) :
    (mining_base sha step h d).1 = true ↔
      ∃ i < step, h256lt (Header.hash sha (iterNonce i h)) d := by
  induction step generalizing h with
  | zero => simp [mining_base]
  | succ k ih =>
      by_cases hw : h256lt (Header.hash sha h) d
      · simp only [mining_base, if_pos hw]
        constructor
        · intro _
          exact ⟨0, Nat.succ_pos k, hw⟩
        · intro _
          trivial
      · simp only [mining_base, if_neg hw]
        rw [ih h.change_nonce]
        constructor
        · rintro ⟨i, hi, hp⟩
          exact ⟨i + 1, Nat.succ_lt_succ hi, hp⟩
        · rintro ⟨i, hi, hp⟩
          cases i with
          | zero => exact absurd hp hw
          | succ j => exact ⟨j, Nat.lt_of_succ_lt_succ hi, hp⟩

theorem mining_base_false_header (sha : Bytes → Bytes) (step : Nat) (h : Header)
    (d : Bytes) (hf : (mining_base sha step h d).1 = false) :
    (mining_base sha step h d).2 = iterNonce step h := by
  induction step generalizing h with
  | zero => rfl
  | succ k ih =>
      by_cases hw : h256lt (Header.hash sha h) d
      · simp only [mining_base, if_pos hw] at hf
        exact absurd hf (by simp)
      · simp only [mining_base, if_neg hw] at hf ⊢
        exact ih h.change_nonce hf

theorem mining_base_true_header (sha : Bytes → Bytes) (step : Nat) (h : Header)
    (d : Bytes) (ht : (mining_base sha step h d).1 = true) :
    ∃ i < step, (∀ j < i, ¬ h256lt (Header.hash sha (iterNonce j h)) d) ∧
      (mining_base sha step h d).2 = iterNonce i h ∧
      h256lt (Header.hash sha (iterNonce i h)) d := by
  induction step generalizing h with
  | zero => simp [mining_base] at ht
  | succ k ih =>
      by_cases hw : h256lt (Header.hash sha h) d
      · refine ⟨0, Nat.succ_pos k, ?_, ?_, hw⟩
        · intro j hj
          exact absurd hj (Nat.not_lt_zero j)
        · simp only [mining_base, if_pos hw]
          rfl
      · simp only [mining_base, if_neg hw] at ht ⊢
        rcases ih h.change_nonce ht with ⟨i, hi, hmin, hres, hwin⟩
        refine ⟨i + 1, Nat.succ_lt_succ hi, ?_, hres, hwin⟩
        intro j hj
        cases j with
        | zero => exact hw
        | succ j' => exact hmin j' (Nat.lt_of_succ_lt_succ hj)

/-- C2: For every header `h` and difficulty `d`, `mining_base(h, d)`
performs at most `MINING_STEP` probes (`step` in the model) and returns
true iff at some probe `h.hash()` is strictly below `d` in big-endian
unsigned comparison; on failure it leaves the nonce at its initial
value plus `MINING_STEP` modulo `2^32` — one wrapping increment per
failed probe — and on success it stops at the winning nonce with no
further increment. -/
theorem mining_base_spec (sha : Bytes → Bytes) (step : Nat) (h : Header)
    (d : Bytes) (hn : h.nonce < 2 ^ 32) :
    ((mining_base sha step h d).1 = true ↔
      ∃ i < step, h256lt (Header.hash sha (iterNonce i h)) d) ∧
    ((mining_base sha step h d).1 = false →
      (mining_base sha step h d).2 = iterNonce step h ∧
      (mining_base sha step h d).2.nonce = (h.nonce + step) % 2 ^ 32) ∧
    ((mining_base sha step h d).1 = true →
      ∃ i < step, (∀ j < i, ¬ h256lt (Header.hash sha (iterNonce j h)) d) ∧
        (mining_base sha step h d).2 = iterNonce i h ∧
        h256lt (Header.hash sha (iterNonce i h)) d) := by
  refine ⟨mining_base_true_iff sha step h d, ?_, mining_base_true_header sha step h d⟩
  intro hf
  have hh := mining_base_false_header sha step h d hf
  refine ⟨hh, ?_⟩
  rw [hh]
  exact iterNonce_nonce step h hn

/-- Witness for C2: with a constant all-zero hash and an all-zero
difficulty no probe can win, so a 3-step burst fails and leaves the
nonce advanced by 3. -/
theorem mining_base_spec_witness :
    (mining_base (fun _ => List.replicate 32 0) 3
      (Header.new (List.replicate 32 0) 5 0 (List.replicate 32 0) (List.replicate 32 0))
      (List.replicate 32 0)).1 = false ∧
    (mining_base (fun _ => List.replicate 32 0) 3
      (Header.new (List.replicate 32 0) 5 0 (List.replicate 32 0) (List.replicate 32 0))
      (List.replicate 32 0)).2.nonce =
      ((Header.new (List.replicate 32 0) 5 0 (List.replicate 32 0)
        (List.replicate 32 0)).nonce + 3) % 2 ^ 32 := by
  have hsp := mining_base_spec (fun _ => List.replicate 32 0) 3
    (Header.new (List.replicate 32 0) 5 0 (List.replicate 32 0) (List.replicate 32 0))
    (List.replicate 32 0) (by decide)
  have hf : (mining_base (fun _ => List.replicate 32 0) 3
      (Header.new (List.replicate 32 0) 5 0 (List.replicate 32 0) (List.replicate 32 0))
      (List.replicate 32 0)).1 = false := by decide
  exact ⟨hf, (hsp.2.1 hf).2⟩

/-- C3: For every block `b`, `found(b)` inserts `b` into the blockchain,
removes exactly the hashes of `b`'s content transactions from the
mempool — every transaction hash in `b.content` is absent immediately
after, entries with unlisted hashes are untouched — increments the
miner's `mined_num` by one, and broadcasts `NewBlockHashes([b.hash])`. -/
theorem found_spec (s : NodeState) (b : Block)
    (hnd : keysNodup s.mempool.transactions) :
    (found s b).blockchain = s.blockchain ++ [b] ∧
    (∀ h ∈ b.content.get_trans_hashes,
      lookupKey (found s b).mempool.transactions h = none) ∧
    (∀ h, h ∉ b.content.get_trans_hashes →
      lookupKey (found s b).mempool.transactions h =
        lookupKey s.mempool.transactions h) ∧
    (found s b).mined_num = s.mined_num + 1 ∧
    (found s b).broadcasts = s.broadcasts ++ [Message.NewBlockHashes [b.hash]] := by
  refine ⟨rfl, ?_, ?_, rfl, rfl⟩
  · intro h hm
    exact foldl_removeStep_lookup_mem b.content.get_trans_hashes
      s.mempool.transactions h hnd hm
  · intro h hnm
    exact foldl_removeStep_lookup_not_mem b.content.get_trans_hashes
      s.mempool.transactions h hnm

/-- Witness for C3: committing a one-transaction block empties a
one-entry mempool, counts the block and logs the broadcast. -/
theorem found_spec_witness :
    (found
      (NodeState.mk [] (MemPool.mk [(List.replicate 32 0, ⟨List.replicate 32 0, true⟩)]) 5 0 [])
      (Block.mk (List.replicate 32 1) 0
        (Header.new (List.replicate 32 0) 0 0 (List.replicate 32 0) (List.replicate 32 0))
        (Content.new_with_trans [⟨List.replicate 32 0, true⟩]))).mined_num = 0 + 1 ∧
    lookupKey (found
      (NodeState.mk [] (MemPool.mk [(List.replicate 32 0, ⟨List.replicate 32 0, true⟩)]) 5 0 [])
      (Block.mk (List.replicate 32 1) 0
        (Header.new (List.replicate 32 0) 0 0 (List.replicate 32 0) (List.replicate 32 0))
        (Content.new_with_trans [⟨List.replicate 32 0, true⟩]))).mempool.transactions
      (List.replicate 32 0) = none := by
  have h := found_spec
    (NodeState.mk [] (MemPool.mk [(List.replicate 32 0, ⟨List.replicate 32 0, true⟩)]) 5 0 [])
    (Block.mk (List.replicate 32 1) 0
      (Header.new (List.replicate 32 0) 0 0 (List.replicate 32 0) (List.replicate 32 0))
      (Content.new_with_trans [⟨List.replicate 32 0, true⟩]))
    (by decide)
  exact ⟨h.2.2.2.1, h.2.1 (List.replicate 32 0) (by decide)⟩

/-- C5: For every mining burst on a non-empty mempool: on success the
rolling nonce cursor is reset to 0; on failure the cursor advances to
the last probed nonce, its previous value plus `MINING_STEP` modulo
`2^32`, and `mining()` returns false. -/
theorem mining_nonce_cursor (sha : Bytes → Bytes) (miningStep blockLimit : Nat)
    (s : NodeState) (tip difficulty : Bytes) (ts : Nat)
    (hne : s.mempool.size ≠ 0) (hn : s.nonce < 2 ^ 32) :
    ((mining sha miningStep blockLimit s tip difficulty ts).1 = true →
      (mining sha miningStep blockLimit s tip difficulty ts).2.nonce = 0) ∧
    ((mining sha miningStep blockLimit s tip difficulty ts).1 = false →
      (mining sha miningStep blockLimit s tip difficulty ts).2.nonce =
        (s.nonce + miningStep) % 2 ^ 32) := by
  simp only [mining, if_neg hne]
  cases hmb : mining_base sha miningStep
      (Header.new tip s.nonce ts difficulty
        (Content.merkle_root sha (s.mempool.create_content blockLimit)))
      difficulty with
  | mk bb hh =>
      cases bb with
      | true =>
          constructor
          · intro _
            rfl
          · intro hcontra
            simp at hcontra
      | false =>
          constructor
          · intro hcontra
            simp at hcontra
          · intro _
            have hf : (mining_base sha miningStep
                (Header.new tip s.nonce ts difficulty
                  (Content.merkle_root sha (s.mempool.create_content blockLimit)))
                difficulty).1 = false := by
              rw [hmb]
            have h2 := mining_base_false_header sha miningStep
              (Header.new tip s.nonce ts difficulty
                (Content.merkle_root sha (s.mempool.create_content blockLimit)))
              difficulty hf
            rw [hmb] at h2
            have h3 : hh = iterNonce miningStep
                (Header.new tip s.nonce ts difficulty
                  (Content.merkle_root sha (s.mempool.create_content blockLimit))) := h2
            show hh.nonce = _
            rw [h3]
            exact iterNonce_nonce miningStep _ hn

/-- Witness for C5: a constant zero hash wins at once against a nonzero
target (cursor resets to 0) and never wins against the zero target (a
3-probe burst advances the cursor from 5 to 8). -/
theorem mining_nonce_cursor_witness :
    (mining (fun _ => List.replicate 32 0) 3 5
      (NodeState.mk [] (MemPool.mk [(List.replicate 32 0, ⟨List.replicate 32 0, true⟩)]) 5 0 [])
      (List.replicate 32 0) (List.replicate 31 0 ++ [1]) 0).2.nonce = 0 ∧
    (mining (fun _ => List.replicate 32 0) 3 5
      (NodeState.mk [] (MemPool.mk [(List.replicate 32 0, ⟨List.replicate 32 0, true⟩)]) 5 0 [])
      (List.replicate 32 0) (List.replicate 32 0) 0).2.nonce = (5 + 3) % 2 ^ 32 := by
  constructor
  · exact (mining_nonce_cursor (fun _ => List.replicate 32 0) 3 5
      (NodeState.mk [] (MemPool.mk [(List.replicate 32 0, ⟨List.replicate 32 0, true⟩)]) 5 0 [])
      (List.replicate 32 0) (List.replicate 31 0 ++ [1]) 0
      (by decide) (by decide)).1 (by decide)
  · exact (mining_nonce_cursor (fun _ => List.replicate 32 0) 3 5
      (NodeState.mk [] (MemPool.mk [(List.replicate 32 0, ⟨List.replicate 32 0, true⟩)]) 5 0 [])
      (List.replicate 32 0) (List.replicate 32 0) 0
      (by decide) (by decide)).2 (by decide)

/-- C6: If the mempool is empty, one mining burst returns false
immediately with the whole state — blockchain, mempool and nonce
cursor — unchanged; and whenever a burst does produce a block (with a
positive `BLOCK_SIZE_LIMIT`), that block carries at least one
transaction. -/
theorem mining_empty_pool (sha : Bytes → Bytes) (miningStep blockLimit : Nat)
    (s : NodeState) (tip difficulty : Bytes) (ts : Nat) :
    (s.mempool.size = 0 →
      mining sha miningStep blockLimit s tip difficulty ts = (false, s)) ∧
    (0 < blockLimit →
      (mining sha miningStep blockLimit s tip difficulty ts).1 = true →
      ∃ b, (mining sha miningStep blockLimit s tip difficulty ts).2.blockchain =
        s.blockchain ++ [b] ∧ b.content.trans ≠ []) := by
  constructor
  · intro hz
    simp [mining, hz]
  · intro hbl htrue
    by_cases hz : s.mempool.size = 0
    · rw [(by simp [mining, hz] :
        mining sha miningStep blockLimit s tip difficulty ts = (false, s))] at htrue
      simp at htrue
    · simp only [mining, if_neg hz] at htrue ⊢
      cases hmb : mining_base sha miningStep
          (Header.new tip s.nonce ts difficulty
            (Content.merkle_root sha (s.mempool.create_content blockLimit)))
          difficulty with
      | mk bb hh =>
          cases bb with
          | false =>
              rw [hmb] at htrue
              simp at htrue
          | true =>
              refine ⟨Block.new sha hh (s.mempool.create_content blockLimit), rfl, ?_⟩
              intro hnil
              have hnil' : (s.mempool.create_content blockLimit).trans = [] := hnil
              have hlen : (s.mempool.create_content blockLimit).trans.length =
                  min (min blockLimit s.mempool.size) s.mempool.size := by
                simp [MemPool.create_content, Content.new_with_trans, MemPool.size]
              rw [hnil'] at hlen
              have hp1 : 0 < s.mempool.size := Nat.pos_of_ne_zero hz
              have hpos : 0 < min (min blockLimit s.mempool.size) s.mempool.size :=
                lt_min_iff.mpr ⟨lt_min_iff.mpr ⟨hbl, hp1⟩, hp1⟩
              rw [← hlen] at hpos
              simp at hpos

/-- Witness for C6: on an empty mempool a burst returns false and the
state is untouched. -/
theorem mining_empty_pool_witness :
    mining (fun _ => List.replicate 32 0) 3 5
      (NodeState.mk [] MemPool.new 7 0 [])
      (List.replicate 32 0) (List.replicate 32 0) 0 =
      (false, NodeState.mk [] MemPool.new 7 0 []) :=
  (mining_empty_pool (fun _ => List.replicate 32 0) 3 5
    (NodeState.mk [] MemPool.new 7 0 [])
    (List.replicate 32 0) (List.replicate 32 0) 0).1 (by decide)

theorem encodeTrans_length (t : SignedTransaction) :
    (encodeTrans t).length = t.hash.length + 1 := by
  simp [encodeTrans]

theorem encodeTrans_inj (t1 t2 : SignedTransaction)
    (h1 : t1.hash.length = 32) (h2 : t2.hash.length = 32)
    (he : encodeTrans t1 = encodeTrans t2) : t1 = t2 := by
  unfold encodeTrans at he
  obtain ⟨hh, hs⟩ := List.append_inj he (h1.trans h2.symm)
  have hsig : t1.sigOk = t2.sigOk := by
    revert hs
    cases t1.sigOk <;> cases t2.sigOk <;> simp
  cases t1
  cases t2
  simp_all

theorem encodeTransList_inj : ∀ (l1 l2 : List SignedTransaction),
    (∀ t ∈ l1, t.hash.length = 32) → (∀ t ∈ l2, t.hash.length = 32) →
    l1.length = l2.length → encodeTransList l1 = encodeTransList l2 → l1 = l2
  | [], [], _, _, _, _ => rfl
  | [], t2 :: r2, _, _, hl, _ => by simp at hl
  | t1 :: r1, [], _, _, hl, _ => by simp at hl
  | t1 :: r1, t2 :: r2, h1, h2, hl, he => by
      have hw1 : t1.hash.length = 32 := h1 t1 (List.mem_cons_self t1 r1)
      have hw2 : t2.hash.length = 32 := h2 t2 (List.mem_cons_self t2 r2)
      unfold encodeTransList at he
      obtain ⟨hh, ht⟩ := List.append_inj he
        (by rw [encodeTrans_length, encodeTrans_length, hw1, hw2])
      have hte : t1 = t2 := encodeTrans_inj t1 t2 hw1 hw2 hh
      have hre : r1 = r2 := encodeTransList_inj r1 r2
        (fun t hm => h1 t (List.mem_cons_of_mem t1 hm))
        (fun t hm => h2 t (List.mem_cons_of_mem t2 hm))
        (by simpa using hl) ht
      rw [hte, hre]

theorem encodeContent_inj (c1 c2 : Content) (w1 : c1.wf) (w2 : c2.wf)
    (he : encodeContent c1 = encodeContent c2) : c1 = c2 := by
  unfold encodeContent at he
  obtain ⟨hl, hb⟩ := List.append_inj he
    (by rw [beBytes_length, beBytes_length])
  have hlen : c1.trans.length = c2.trans.length :=
    beBytes_inj w1.1 w2.1 hl
  have : c1.trans = c2.trans := encodeTransList_inj c1.trans c2.trans w1.2 w2.2 hlen hb
  cases c1
  cases c2
  simp_all

theorem encodeHeader_inj (h1 h2 : Header) (w1 : h1.wf) (w2 : h2.wf)
    (he : encodeHeader h1 = encodeHeader h2) : h1 = h2 := by
  unfold encodeHeader at he
  obtain ⟨he4, hmr⟩ := List.append_inj he
    (by simp [beBytes_length, w1.1.1, w2.1.1, w1.2.2.1.1, w2.2.2.1.1])
  obtain ⟨he3, hts⟩ := List.append_inj he4
    (by simp [beBytes_length, w1.1.1, w2.1.1, w1.2.2.1.1, w2.2.2.1.1])
  obtain ⟨he2, hdf⟩ := List.append_inj he3
    (by simp [beBytes_length, w1.1.1, w2.1.1])
  obtain ⟨hpr, hnn⟩ := List.append_inj he2 (by rw [w1.1.1, w2.1.1])
  have hnonce : h1.nonce = h2.nonce := beBytes_inj w1.2.1 w2.2.1 hnn
  have htime : h1.timestamp = h2.timestamp := beBytes_inj w1.2.2.2.1 w2.2.2.2.1 hts
  cases h1
  cases h2
  simp_all

theorem serializeBlock_inj (b1 b2 : Block) (w1 : b1.wf) (w2 : b2.wf)
    (he : serializeBlock b1 = serializeBlock b2) : b1 = b2 := by
  unfold serializeBlock at he
  obtain ⟨he3, hct⟩ := List.append_inj he
    (by
      simp [beBytes_length, w1.1, w2.1, encodeHeader, w1.2.2.1.1.1, w2.2.2.1.1.1,
        w1.2.2.1.2.2.1.1, w2.2.2.1.2.2.1.1, w1.2.2.1.2.2.2.2.1, w2.2.2.1.2.2.2.2.1])
  obtain ⟨he2, hhd⟩ := List.append_inj he3
    (by simp [beBytes_length, w1.1, w2.1])
  obtain ⟨hhash, hidx⟩ := List.append_inj he2 (by rw [w1.1, w2.1])
  have hindex : b1.index = b2.index := beBytes_inj w1.2.1 w2.2.1 hidx
  have hheader : b1.header = b2.header := encodeHeader_inj _ _ w1.2.2.1 w2.2.2.1 hhd
  have hcontent : b1.content = b2.content := encodeContent_inj _ _ w1.2.2.2 w2.2.2.2 hct
  cases b1
  cases b2
  simp_all

/-- C9: Block equality coincides with byte equality of the blocks'
canonical serialized representations, and is sensitive to both header
and content: for well-formed blocks, serialized equality forces full
structural equality, so changing either the header or the content —
in particular keeping the header and changing the content — yields
inequality. -/
theorem block_equality_spec (b1 b2 : Block) (w1 : b1.wf) (w2 : b2.wf) :
    (Block.eqSer b1 b2 ↔ serializeBlock b1 = serializeBlock b2) ∧
    (Block.eqSer b1 b2 ↔ b1 = b2) := by
  refine ⟨Iff.rfl, ?_, ?_⟩
  · intro he
    exact serializeBlock_inj b1 b2 w1 w2 he
  · intro he
    rw [he]
    exact rfl

/-- Witness for C9: two blocks sharing their header but differing in
content are unequal under the serialized comparison. -/
theorem block_equality_spec_witness :
    ¬ Block.eqSer
      (Block.mk (List.replicate 32 0) 0
        (Header.new (List.replicate 32 0) 0 0 (List.replicate 32 0) (List.replicate 32 0))
        (Content.new_with_trans []))
      (Block.mk (List.replicate 32 0) 0
        (Header.new (List.replicate 32 0) 0 0 (List.replicate 32 0) (List.replicate 32 0))
        (Content.new_with_trans [⟨List.replicate 32 0, true⟩])) := by
  intro he
  have h := (block_equality_spec
    (Block.mk (List.replicate 32 0) 0
      (Header.new (List.replicate 32 0) 0 0 (List.replicate 32 0) (List.replicate 32 0))
      (Content.new_with_trans []))
    (Block.mk (List.replicate 32 0) 0
      (Header.new (List.replicate 32 0) 0 0 (List.replicate 32 0) (List.replicate 32 0))
      (Content.new_with_trans [⟨List.replicate 32 0, true⟩]))
    (by decide) (by decide)).2.mp he
  exact absurd h (by decide)

/-- C10: For every parent, nonce, difficulty, merkle_root and every
timestamp `ts` (the miner passes a `u128` millisecond count),
`Header::new` stores `ts` reduced modulo `2^64` — the `as u64` cast
truncates silently — so the header hash, and with it the mined block's
identity, commits only to the low 64 bits of the supplied timestamp. -/
theorem header_new_timestamp_truncation (sha : Bytes → Bytes) (parent : Bytes)
    (nonce ts : Nat) (difficulty merkle_root : Bytes) (c : Content) :
    (Header.new parent nonce ts difficulty merkle_root).timestamp = ts % 2 ^ 64 ∧
    Header.new parent nonce ts difficulty merkle_root =
      Header.new parent nonce (ts % 2 ^ 64) difficulty merkle_root ∧
    (Block.new sha (Header.new parent nonce ts difficulty merkle_root) c).hash =
      (Block.new sha (Header.new parent nonce (ts % 2 ^ 64) difficulty merkle_root) c).hash := by
  have hmm : ts % 2 ^ 64 % 2 ^ 64 = ts % 2 ^ 64 := Nat.mod_mod_of_dvd ts dvd_rfl
  have heq : Header.new parent nonce ts difficulty merkle_root =
      Header.new parent nonce (ts % 2 ^ 64) difficulty merkle_root := by
    simp [Header.new, hmm]
  exact ⟨rfl, heq, by rw [heq]⟩

end BitcoinClient
